import Mathlib

/-!
Shallow embedding of the history-mining engine in `git_analyzer.py`
(class `GitAnalyzer`).  Strings are modelled as `List Char` internally,
with `String` wrappers at the API boundary.  Python regular-expression
searches are embedded as specialised backtracking matchers that follow
`re.search` semantics (leftmost start position, lazy/greedy quantifier
order) for the concrete patterns appearing in the source.
-/

namespace GitAnalyzer

/-- The ASCII whitespace characters recognised by Python's default
whitespace handling (as used by str.strip and the regex class \s). -/
def isPySpace (c : Char) : Bool :=
  c = ' ' || c = '\t' || c = '\n' || c = '\r' || c = '\x0b' || c = '\x0c'

/-- Python regex word character \w restricted to ASCII:
letters, digits and underscore. -/
def isWordChar (c : Char) : Bool :=
  ('a' ≤ c && c ≤ 'z') || ('A' ≤ c && c ≤ 'Z') || ('0' ≤ c && c ≤ '9') || c = '_'

/-- ASCII decimal digit, Python regex class \d. -/
def isDigitChar (c : Char) : Bool :=
  '0' ≤ c && c ≤ '9'

/-- The single-quote character (U+0027). -/
def squote : Char := Char.ofNat 39

/-- Plain (case-sensitive) list prefix test. -/
def startsWithL : List Char → List Char → Bool
  | [], _ => true
  | _ :: _, [] => false
  | p :: ps, c :: cs => p = c && startsWithL ps cs

/-- Case-insensitive prefix strip: the pattern `p` is given in lower
case; on success returns the remainder of the subject after the
matched prefix.  Models matching a literal under re.IGNORECASE. -/
def stripCI : List Char → List Char → Option (List Char)
  | [], s => some s
  | _ :: _, [] => none
  | p :: ps, c :: cs => if p = c.toLower then stripCI ps cs else none

/-- Substring containment (`needle in haystack` on Python strings),
case-sensitive; callers lower both sides first when needed. -/
def containsSub (n : List Char) : List Char → Bool
  | [] => n.isEmpty
  | c :: cs => startsWithL n (c :: cs) || containsSub n cs

/-- Python str.lower on the character list (ASCII model). -/
def lowerL (s : List Char) : List Char := s.map Char.toLower

/-- Remove trailing characters satisfying `p` (the tail half of
Python str.strip). -/
def dropEndWhile (p : Char → Bool) : List Char → List Char
  | [] => []
  | c :: cs =>
    match dropEndWhile p cs with
    | [] => if p c then [] else [c]
    | r => c :: r

/-- Python str.strip() on a character list: removes leading and
trailing whitespace. -/
def pyStripL (s : List Char) : List Char :=
  dropEndWhile isPySpace (s.dropWhile isPySpace)

/-- Python str.strip() at the String level. -/
def pyStrip (s : String) : String := String.mk (pyStripL s.data)

/-- Python str.split on the slash character: always returns at least
one (possibly empty) segment, one more segment per slash. -/
def splitSlash : List Char → List (List Char)
  | [] => [[]]
  | c :: cs =>
    if c = '/' then [] :: splitSlash cs
    else
      match splitSlash cs with
      | [] => [[c]]
      | h :: t => (c :: h) :: t

/-- Python repo.replace(".git", "") : removes every (non-overlapping,
left-to-right) occurrence of ".git" from the string. -/
def removeDotGit : List Char → List Char
  | '.' :: 'g' :: 'i' :: 't' :: rest => removeDotGit rest
  | c :: rest => c :: removeDotGit rest
  | [] => []

/-!
`_analyze_merge_commit` (git_analyzer.py lines 598-618): branch-name
extraction over the four patterns, tried in order, first match wins.
Each pattern is deterministic once the start position is fixed (the
negated character classes cannot overrun their following literal), so
each `patNAt` matcher tries the pattern at the head of its argument
and `searchAt` supplies re.search's scan over start positions.
-/

/-- re.search scan: try the position matcher `f` at every start
position of the subject, leftmost success wins. -/
def searchAt (f : List Char → Option α) : List Char → Option α
  | [] => f []
  | c :: cs =>
    match f (c :: cs) with
    | some r => some r
    | none => searchAt f cs

/-- Pattern 1, r"Merge branch '([^']+)' into ([^\s]+)" (IGNORECASE),
tried at the head of the subject. -/
def pat1At (s : List Char) : Option (List Char × List Char) :=
  match stripCI "merge branch ".data s with
  | none => none
  | some r0 =>
    match r0 with
    | [] => none
    | q :: r1 =>
      if q = squote then
        let src := r1.takeWhile (fun c => c ≠ squote)
        match r1.dropWhile (fun c => c ≠ squote) with
        | [] => none
        | _ :: r2 =>
          if src.isEmpty then none
          else
            match stripCI " into ".data r2 with
            | none => none
            | some r3 =>
              let tgt := r3.takeWhile (fun c => ¬ isPySpace c)
              if tgt.isEmpty then none else some (src, tgt)
      else none

/-- Pattern 2, r"Merge branch '([^']+)'" (IGNORECASE), tried at the
head of the subject. -/
def pat2At (s : List Char) : Option (List Char) :=
  match stripCI "merge branch ".data s with
  | none => none
  | some r0 =>
    match r0 with
    | [] => none
    | q :: r1 =>
      if q = squote then
        let src := r1.takeWhile (fun c => c ≠ squote)
        match r1.dropWhile (fun c => c ≠ squote) with
        | [] => none
        | _ :: _ => if src.isEmpty then none else some src
      else none

/-- Pattern 3, r"Merge pull request #\d+ from ([^\s]+)" (IGNORECASE),
tried at the head of the subject. -/
def pat3At (s : List Char) : Option (List Char) :=
  match stripCI "merge pull request #".data s with
  | none => none
  | some r0 =>
    let digits := r0.takeWhile isDigitChar
    if digits.isEmpty then none
    else
      match stripCI " from ".data (r0.dropWhile isDigitChar) with
      | none => none
      | some r1 =>
        let src := r1.takeWhile (fun c => ¬ isPySpace c)
        if src.isEmpty then none else some src

/-- Pattern 4, r"Merge ([^\s]+) into ([^\s]+)" (IGNORECASE), tried at
the head of the subject. -/
def pat4At (s : List Char) : Option (List Char × List Char) :=
  match stripCI "merge ".data s with
  | none => none
  | some r0 =>
    let src := r0.takeWhile (fun c => ¬ isPySpace c)
    if src.isEmpty then none
    else
      match stripCI " into ".data (r0.dropWhile (fun c => ¬ isPySpace c)) with
      | none => none
      | some r1 =>
        let tgt := r1.takeWhile (fun c => ¬ isPySpace c)
        if tgt.isEmpty then none else some (src, tgt)

/-- The branch-name extraction loop of `_analyze_merge_commit`:
patterns are tried in the fixed order 1,2,3,4 against the message,
first match wins; two-group patterns capture source and target,
one-group patterns capture source with target defaulting to "main";
no match at all yields the "unknown" sentinels. -/
def analyzeMergeMessage (message : String) : String × String :=
  let s := message.data
  match searchAt pat1At s with
  | some (src, tgt) => (String.mk src, String.mk tgt)
  | none =>
    match searchAt pat2At s with
    | some src => (String.mk src, "main")
    | none =>
      match searchAt pat3At s with
      | some src => (String.mk src, "main")
      | none =>
        match searchAt pat4At s with
        | some (src, tgt) => (String.mk src, String.mk tgt)
        | none => ("unknown", "unknown")

/-- `_classify_merge_type` (git_analyzer.py lines 651-674):
case-insensitive substring rules evaluated in fixed priority order. -/
def classifyMergeType (message : String) : String :=
  let m := lowerL message.data
  if containsSub "pull request".data m || containsSub "pr".data m then "Pull Request"
  else if containsSub "feature".data m then "Feature Branch"
  else if containsSub "hotfix".data m || containsSub "fix".data m then "Hotfix"
  else if containsSub "release".data m then "Release Branch"
  else if containsSub "develop".data m then "Development Branch"
  else "Regular Merge"

/-!
`_is_remote_url` (git_analyzer.py lines 42-59) and
`_normalize_remote_url` (lines 61-86).
-/

/-- The nine fixed substrings whose presence marks an input as a
remote identifier. -/
def remotePatterns : List (List Char) :=
  ["http://".data, "https://".data, "git://".data, "ssh://".data,
   "git@".data, ".git".data, "github.com".data, "gitlab.com".data,
   "bitbucket.org".data]

/-- `_is_remote_url`: the input is stripped and lowercased, then
classified remote if it contains any of the nine fixed substrings, or
if it splits on the slash into at least two segments, does not start
with a slash, and its first segment contains no dot. -/
def isRemoteUrl (repoPath : String) : Bool :=
  let s := lowerL (pyStripL repoPath.data)
  if remotePatterns.any (fun p => containsSub p s) then true
  else
    let parts := splitSlash s
    decide (parts.length ≥ 2)
      && !(startsWithL "/".data s)
      && !(containsSub ".".data (parts.headI))

/-- The github rewrite used by `_normalize_remote_url` for the
shorthand forms: any ".git" occurrence is removed from the repo
segment and a final ".git" appended. -/
def githubUrlOf (user repo : List Char) : List Char :=
  "https://github.com/".data ++ user ++ "/".data ++ removeDotGit repo ++ ".git".data

/-- The body of `_normalize_remote_url` after the initial strip:
scheme-prefixed URLs and git@ addresses pass through; a 3-segment
path with first segment "m" and a 2-segment path are rewritten to a
github URL; everything else is returned as is. -/
def normalizeCore (s : List Char) : List Char :=
  if startsWithL "http://".data s || startsWithL "https://".data s
     || startsWithL "git://".data s || startsWithL "ssh://".data s then s
  else if startsWithL "git@".data s then s
  else
    match splitSlash s with
    | [m, user, repo] => if m = "m".data then githubUrlOf user repo else s
    | [user, repo] => githubUrlOf user repo
    | _ => s

/-- `_normalize_remote_url`: strip, then normalize. -/
def normalizeRemoteUrl (repoInput : String) : String :=
  String.mk (normalizeCore (pyStripL repoInput.data))

/-!
`get_merge_stats` (git_analyzer.py lines 247-277) extracts branch
names with the single pattern r"Merge.*?(\w+).*?into.*?(\w+)" under
re.IGNORECASE.  The backtracking engine below follows re.search
semantics for exactly this pattern: the dot does not match a newline,
the lazy stars grow one character at a time, and the greedy \w+ of
the first group backtracks from its longest run downwards.
-/

/-- Tail of the single merge regex: ".*?(\w+)", returning the second
capture group.  The lazy star consumes non-newline characters until a
word character starts the greedy group. -/
def mergeRxTail : List Char → Option (List Char)
  | [] => none
  | c :: cs =>
    if isWordChar c then some ((c :: cs).takeWhile isWordChar)
    else if c = '\n' then none
    else mergeRxTail cs

/-- Middle of the single merge regex: ".*?into.*?(\w+)" under
IGNORECASE.  The lazy star tries each position in turn; at a position
where the literal "into" matches but the tail fails, backtracking
continues with the next position. -/
def mergeRxMid : List Char → Option (List Char)
  | [] => none
  | c :: cs =>
    match (match stripCI "into".data (c :: cs) with
           | some r => mergeRxTail r
           | none => none) with
    | some g2 => some g2
    | none => if c = '\n' then none else mergeRxMid cs

/-- Greedy backtracking of the first group "(\w+)": the group is a
prefix of the maximal word-character run `run`, tried from length
`len` downwards; `rest` is the subject after the run. -/
def mergeRxGroup1 (run rest : List Char) : Nat → Option (List Char × List Char)
  | 0 => none
  | n + 1 =>
    match mergeRxMid (run.drop (n + 1) ++ rest) with
    | some g2 => some (run.take (n + 1), g2)
    | none => mergeRxGroup1 run rest n

/-- Part of the single merge regex after the literal:
".*?(\w+).*?into.*?(\w+)". -/
def mergeRxAfter : List Char → Option (List Char × List Char)
  | [] => none
  | c :: cs =>
    if isWordChar c then
      let run := (c :: cs).takeWhile isWordChar
      let rest := (c :: cs).dropWhile isWordChar
      match mergeRxGroup1 run rest run.length with
      | some p => some p
      | none => if c = '\n' then none else mergeRxAfter cs
    else if c = '\n' then none
    else mergeRxAfter cs

/-- The whole pattern tried at one start position: the literal
"Merge" (IGNORECASE) followed by the rest of the pattern. -/
def mergeRxAt (s : List Char) : Option (List Char × List Char) :=
  match stripCI "merge".data s with
  | some r => mergeRxAfter r
  | none => none

/-- Branch-name extraction of `get_merge_stats`: re.search of the
single pattern over the message; on a match the two groups are the
source and target, otherwise both are "unknown". -/
def mergeStatsExtract (message : String) : String × String :=
  match searchAt mergeRxAt message.data with
  | some (g1, g2) => (String.mk g1, String.mk g2)
  | none => ("unknown", "unknown")

/-!
`get_branch_graph_data` (git_analyzer.py lines 466-550).  A branch is
modelled by its name together with the sequence of commit hashes that
`iter_commits(branch)` yields from its tip (newest first); the
builder takes the first 50 of them (max_count=50).  The repository's
object store is modelled by total lookup functions for the commit
date and parents (lookups of hashes obtained from a traversal of the
same repository succeed).
-/

structure BranchRef where
  name : String
  commits : List String
deriving Repr, DecidableEq

structure GraphRepo where
  branches : List BranchRef
  commitDate : String → Int
  commitParents : String → List String

/-- One step of building `commit_branch_map`: if the hash is absent a
fresh entry is created, then the branch name is appended to the
hash's list; python dict insertion order is preserved. -/
def addTag : List (String × List String) → String → String → List (String × List String)
  | [], h, bn => [(h, [bn])]
  | (k, v) :: rest, h, bn =>
    if k = h then (k, v ++ [bn]) :: rest else (k, v) :: addTag rest h bn

/-- The `commit_branch_map` accumulation loop: for every branch, the
first 50 commits of its traversal each receive the branch's name. -/
def buildCommitBranchMap (branches : List BranchRef) : List (String × List String) :=
  branches.foldl
    (fun m b => (b.commits.take 50).foldl (fun m2 h => addTag m2 h b.name) m) []

/-- A node of the commit graph (an entry of the graph_data commits
list in the source; the message field is omitted as unused here). -/
structure GraphNode where
  full_hash : String
  date : Int
  branches : List String
  parents : List String
  is_merge : Bool
deriving Repr

/-- The graph node built for one entry of `commit_branch_map`. -/
def nodeOfEntry (r : GraphRepo) (e : String × List String) : GraphNode :=
  { full_hash := e.1, date := r.commitDate e.1, branches := e.2,
    parents := r.commitParents e.1,
    is_merge := decide ((r.commitParents e.1).length > 1) }

/-- The node list of `get_branch_graph_data`: one node per entry of
`commit_branch_map`, then sorted by date, most recent first (python's
stable in-place sort with reverse=True). -/
def graphCommits (r : GraphRepo) : List GraphNode :=
  ((buildCommitBranchMap r.branches).map (nodeOfEntry r)).mergeSort
    (fun a b => b.date ≤ a.date)

/-!
`get_branch_stats` (git_analyzer.py lines 382-422).  Each branch row
evaluates `branch == self.repo.active_branch`; when HEAD is detached
the `active_branch` property raises (GitPython raises TypeError),
which the per-branch handler catches, skipping that branch.  The
optional `active` field is `none` exactly in the detached state.
-/

structure BranchTip where
  name : String
  tipHash : String
  tipDate : Int
  tipAuthor : String
  commitCount : Nat
deriving Repr

structure BranchRepo where
  branches : List BranchTip
  active : Option String
deriving Repr

structure BranchStat where
  branch_name : String
  last_commit_hash : String
  last_commit_date : Int
  last_author : String
  commits_count : Nat
  is_active : Bool
deriving Repr, DecidableEq

def getBranchStats (r : BranchRepo) : List BranchStat :=
  r.branches.filterMap fun b =>
    match r.active with
    | none => none
    | some a =>
      some { branch_name := b.name, last_commit_hash := b.tipHash.take 8,
             last_commit_date := b.tipDate, last_author := b.tipAuthor,
             commits_count := b.commitCount, is_active := b.name = a }

/-!
`get_commit_stats` (git_analyzer.py lines 166-218).  The repository
maps a reference name to the rev-list of commits reachable from it
(newest first); an unresolvable reference makes `iter_commits` raise
GitCommandError, which the source catches, continuing with an empty
commit list.  The since/until bounds filter on the commit date.
-/

structure CommitRec where
  hexsha : String
  authorName : String
  authorEmail : String
  date : Int
  message : String
  files : Nat
  insertions : Nat
  deletions : Nat
deriving Repr

structure WalkRepo where
  refs : List (String × List CommitRec)

def lookupRef (r : WalkRepo) (ref : String) : Option (List CommitRec) :=
  (r.refs.find? (fun p => p.1 = ref)).map Prod.snd

structure CommitRow where
  hash : String
  full_hash : String
  author : String
  author_email : String
  date : Int
  message : String
  files_changed : Nat
  insertions : Nat
  deletions : Nat
  lines_changed : Nat
deriving Repr

def inDateRange (sinceDate untilDate : Option Int) (d : Int) : Bool :=
  (match sinceDate with | none => true | some s => decide (s ≤ d))
  && (match untilDate with | none => true | some u => decide (d ≤ u))

def getCommitStats (r : WalkRepo) (sinceDate untilDate : Option Int)
    (branch : String) : List CommitRow :=
  let commits : List CommitRec :=
    match lookupRef r branch with
    | none => []
    | some cs => cs.filter (fun c => inDateRange sinceDate untilDate c.date)
  commits.map fun c =>
    { hash := c.hexsha.take 8, full_hash := c.hexsha, author := c.authorName,
      author_email := c.authorEmail, date := c.date, message := pyStrip c.message,
      files_changed := c.files, insertions := c.insertions,
      deletions := c.deletions, lines_changed := c.insertions + c.deletions }

/-!
`get_repo_info` (git_analyzer.py lines 123-164).  The returned python
dict is modelled as an ordered key/value list so that the set of keys
the function actually produces is part of the model.  The repository
state records the originally supplied input string (self.repo_path),
whether it was classified remote, the ephemeral clone directory when
one was made, and HEAD/branch/remote metadata.  `active` is `none`
when the `active_branch` access would raise (yielding "unknown").
-/

inductive InfoVal where
  | str : String → InfoVal
  | nat : Nat → InfoVal
  | bool : Bool → InfoVal
  | urls : List (String × String) → InfoVal
deriving Repr, DecidableEq

structure InfoRepo where
  repoPath : String
  isRemote : Bool
  tempDir : Option String
  headDetached : Bool
  active : Option String
  remotes : List (String × String)
  branchCount : Nat
  bare : Bool
  absPathOf : String → String

def currentBranchField (r : InfoRepo) : String :=
  if ¬ r.headDetached then
    match r.active with
    | some n => n
    | none => "unknown"
  else "HEAD (detached)"

def getRepoInfo (r : InfoRepo) : List (String × InfoVal) :=
  [("path", InfoVal.str (r.absPathOf r.repoPath)),
   ("remote_urls", InfoVal.urls r.remotes),
   ("current_branch", InfoVal.str (currentBranchField r)),
   ("total_branches", InfoVal.nat r.branchCount),
   ("is_bare", InfoVal.bool r.bare)]

/-!
Spec-side predicates and concrete fixtures used by the claim
theorems.
-/

/-- The remote classifier as claim C1 of the spec words it, verbatim:
the raw input contains one of the nine substrings, or it has exactly
two or three slash-separated segments, the first without a dot, and
does not start with a slash.  (Spec-side definition, to be compared
with `isRemoteUrl`, which is taken from the source.) -/
def claimedRemoteSpec (s : String) : Bool :=
  remotePatterns.any (fun p => containsSub p s.data)
  || (((splitSlash s.data).length == 2 || (splitSlash s.data).length == 3)
      && !(startsWithL "/".data s.data)
      && !(containsSub ".".data (splitSlash s.data).headI))

/-- The corrected remote classification condition, stated
declaratively: over the lowercased, whitespace-stripped input, either
one of the nine fixed substrings occurs, or the input splits into at
least two slash-separated segments, does not start with a slash, and
its first segment contains no dot. -/
def remoteSpecProp (s : String) : Prop :=
  (∃ p ∈ remotePatterns, ∃ l1 l2, lowerL (pyStripL s.data) = l1 ++ p ++ l2)
  ∨ ((splitSlash (lowerL (pyStripL s.data))).length ≥ 2
     ∧ (¬ ∃ u, lowerL (pyStripL s.data) = '/' :: u)
     ∧ '.' ∉ (splitSlash (lowerL (pyStripL s.data))).headI)

/-- A repository state with one local branch and a detached HEAD. -/
def detachedRepo : BranchRepo :=
  { branches := [{ name := "main", tipHash := "aaaaaaaaaabbbb", tipDate := 5,
                   tipAuthor := "alice", commitCount := 3 }],
    active := none }

/-- A repository state with two local branches and HEAD attached to
"main". -/
def attachedRepo : BranchRepo :=
  { branches := [{ name := "main", tipHash := "aaaaaaaaaabbbb", tipDate := 5,
                   tipAuthor := "alice", commitCount := 3 },
                 { name := "dev", tipHash := "ccccccccdddd", tipDate := 7,
                   tipAuthor := "bob", commitCount := 4 }],
    active := some "main" }

/-- A repository for the graph builder: two branches whose traversals
share the commit "c1". -/
def sharedHistoryRepo : GraphRepo :=
  { branches := [{ name := "main", commits := ["c3", "c1"] },
                 { name := "dev", commits := ["c2", "c1"] }],
    commitDate := fun h => if h = "c3" then 3 else if h = "c2" then 2 else 1,
    commitParents := fun h => if h = "c3" then ["c1"] else if h = "c2" then ["c1"] else [] }

/-- The branch-name list accumulated for a commit hash in
`commit_branch_map` (empty when the hash is absent). -/
def tagsOf (m : List (String × List String)) (h : String) : List String :=
  match m.find? (fun e => e.1 = h) with
  | none => []
  | some e => e.2

/-- The state of a handle opened from the remote shorthand input
"xd-wuhongxia/gitsubmitter": classified remote, cloned into an
ephemeral directory. -/
def remoteInfoRepo : InfoRepo :=
  { repoPath := "xd-wuhongxia/gitsubmitter",
    isRemote := true,
    tempDir := some "/tmp/git_analyzer_k2x1",
    headDetached := false,
    active := some "main",
    remotes := [("origin", "https://github.com/xd-wuhongxia/gitsubmitter.git")],
    branchCount := 1,
    bare := false,
    absPathOf := fun s => "/cwd/" ++ s }

/-!
Helper lemmas.
-/

theorem mk_data (s : String) : String.mk s.data = s := by
  cases s
  rfl

theorem startsWithL_iff (p s : List Char) :
    startsWithL p s = true ↔ ∃ t, s = p ++ t := by
  induction p generalizing s with
  | nil => simp [startsWithL]
  | cons c cs ih =>
    cases s with
    | nil => simp [startsWithL]
    | cons d ds =>
      simp only [startsWithL, Bool.and_eq_true, decide_eq_true_eq, ih,
        List.cons_append, List.cons.injEq]
      constructor
      · rintro ⟨rfl, t, rfl⟩
        exact ⟨t, rfl, rfl⟩
      · rintro ⟨t, rfl, rfl⟩
        exact ⟨rfl, t, rfl⟩

theorem startsWithL_append_self (p t : List Char) :
    startsWithL p (p ++ t) = true :=
  (startsWithL_iff p (p ++ t)).mpr ⟨t, rfl⟩

theorem containsSub_iff (n h : List Char) :
    containsSub n h = true ↔ ∃ l1 l2, h = l1 ++ n ++ l2 := by
  induction h with
  | nil =>
    simp only [containsSub, List.isEmpty_iff]
    constructor
    · rintro rfl
      exact ⟨[], [], rfl⟩
    · rintro ⟨l1, l2, e⟩
      rcases List.append_eq_nil.mp (List.append_eq_nil.mp e.symm).1 with ⟨-, h2⟩
      exact h2
  | cons c cs ih =>
    simp only [containsSub, Bool.or_eq_true, startsWithL_iff, ih]
    constructor
    · rintro (⟨t, ht⟩ | ⟨l1, l2, hl⟩)
      · exact ⟨[], t, by simpa using ht⟩
      · exact ⟨c :: l1, l2, by simp [hl]⟩
    · rintro ⟨l1, l2, e⟩
      cases l1 with
      | nil =>
        exact Or.inl ⟨l2, by simpa using e⟩
      | cons d ds =>
        have e2 : c = d ∧ cs = ds ++ n ++ l2 := by simpa using e
        exact Or.inr ⟨ds, l2, by simp [e2.2]⟩

theorem containsSub_singleton_iff (c : Char) (l : List Char) :
    containsSub [c] l = true ↔ c ∈ l := by
  rw [containsSub_iff]
  constructor
  · rintro ⟨l1, l2, rfl⟩
    simp
  · intro hm
    rcases List.append_of_mem hm with ⟨l1, l2, rfl⟩
    exact ⟨l1, l2, by simp⟩

theorem splitSlash_ne_nil (l : List Char) : splitSlash l ≠ [] := by
  cases l with
  | nil => simp [splitSlash]
  | cons c cs =>
    by_cases h : c = '/'
    · simp [splitSlash, h]
    · simp only [splitSlash, if_neg h]
      cases hs : splitSlash cs <;> simp

theorem splitSlash_no_slash (l : List Char) (h : '/' ∉ l) : splitSlash l = [l] := by
  induction l with
  | nil => rfl
  | cons c cs ih =>
    have hc : ¬ c = '/' := fun e => h (by simp [e])
    have hcs : '/' ∉ cs := fun m => h (List.mem_cons_of_mem _ m)
    simp [splitSlash, hc, ih hcs]

theorem splitSlash_append (u r : List Char) (hu : '/' ∉ u) :
    splitSlash (u ++ '/' :: r) = u :: splitSlash r := by
  induction u with
  | nil => simp [splitSlash]
  | cons c cs ih =>
    have hc : ¬ c = '/' := fun e => hu (by simp [e])
    have hcs : '/' ∉ cs := fun m => hu (List.mem_cons_of_mem _ m)
    rw [List.cons_append]
    simp only [splitSlash, if_neg hc, List.append_eq]
    rw [ih hcs]

theorem dropWhile_head_false {p : Char → Bool} {l : List Char} {c : Char} {t : List Char}
    (h : l.dropWhile p = c :: t) : p c = false := by
  induction l with
  | nil => simp at h
  | cons d ds ih =>
    rw [List.dropWhile_cons] at h
    by_cases hd : p d = true
    · rw [if_pos hd] at h
      exact ih h
    · rw [if_neg hd] at h
      injection h with h1 h2
      subst h1
      simpa using hd

theorem dropWhile_dropWhile (p : Char → Bool) (l : List Char) :
    (l.dropWhile p).dropWhile p = l.dropWhile p := by
  cases hd : l.dropWhile p with
  | nil => rfl
  | cons c t =>
    rw [List.dropWhile_cons, dropWhile_head_false hd]
    simp

theorem dropEndWhile_cons (p : Char → Bool) (c : Char) (cs : List Char) :
    dropEndWhile p (c :: cs) =
      match dropEndWhile p cs with
      | [] => if p c then [] else [c]
      | r => c :: r := rfl

theorem dropEndWhile_cons_shape (p : Char → Bool) (c : Char) (cs : List Char) :
    dropEndWhile p (c :: cs) = [] ∨ ∃ t, dropEndWhile p (c :: cs) = c :: t := by
  rw [dropEndWhile]
  cases h : dropEndWhile p cs with
  | nil =>
    by_cases hc : p c = true
    · exact Or.inl (by simp [hc])
    · exact Or.inr ⟨[], by simp [hc]⟩
  | cons d ds => exact Or.inr ⟨d :: ds, rfl⟩

theorem dropEndWhile_idem (p : Char → Bool) (l : List Char) :
    dropEndWhile p (dropEndWhile p l) = dropEndWhile p l := by
  induction l with
  | nil => rfl
  | cons c cs ih =>
    rw [dropEndWhile_cons p c cs]
    cases h : dropEndWhile p cs with
    | nil =>
      by_cases hc : p c = true
      · simp [hc, dropEndWhile]
      · simp [hc, dropEndWhile]
    | cons d ds =>
      show dropEndWhile p (c :: d :: ds) = c :: d :: ds
      have hh : dropEndWhile p (d :: ds) = d :: ds := by
        rw [← h, ih, h]
      rw [dropEndWhile_cons, hh]

theorem dropEndWhile_append_last (p : Char → Bool) (l : List Char) {d : Char}
    (hd : p d = false) : dropEndWhile p (l ++ [d]) = l ++ [d] := by
  induction l with
  | nil => simp [dropEndWhile, hd]
  | cons c cs ih =>
    rw [List.cons_append, dropEndWhile_cons, ih]
    cases hcs : cs ++ [d] with
    | nil => exact absurd hcs (by simp)
    | cons e es => rfl

theorem pyStripL_idem (l : List Char) : pyStripL (pyStripL l) = pyStripL l := by
  unfold pyStripL
  have h1 : (dropEndWhile isPySpace (l.dropWhile isPySpace)).dropWhile isPySpace
      = dropEndWhile isPySpace (l.dropWhile isPySpace) := by
    cases hd : l.dropWhile isPySpace with
    | nil => rfl
    | cons c t =>
      rcases dropEndWhile_cons_shape isPySpace c t with h | ⟨u, h⟩
      · simp [h]
      · rw [h, List.dropWhile_cons, dropWhile_head_false hd]
        simp
  rw [h1, dropEndWhile_idem]

theorem pyStripL_fix (c d : Char) (m : List Char)
    (hc : isPySpace c = false) (hd : isPySpace d = false) :
    pyStripL (c :: (m ++ [d])) = c :: (m ++ [d]) := by
  unfold pyStripL
  rw [List.dropWhile_cons]
  simp only [hc, Bool.false_eq_true, if_false]
  have : (c :: (m ++ [d])) = (c :: m) ++ [d] := by simp
  rw [this, dropEndWhile_append_last isPySpace (c :: m) hd]

theorem githubUrlOf_https_shape (u r : List Char) :
    githubUrlOf u r = "https://".data ++ ("github.com/".data ++ u ++ "/".data ++ removeDotGit r ++ ".git".data) := by
  unfold githubUrlOf
  have : "https://github.com/".data = "https://".data ++ "github.com/".data := by decide
  rw [this]
  simp [List.append_assoc]

theorem normalizeCore_github (u r : List Char) :
    normalizeCore (githubUrlOf u r) = githubUrlOf u r := by
  unfold normalizeCore
  rw [githubUrlOf_https_shape u r, startsWithL_append_self]
  simp

theorem pyStripL_github (u r : List Char) :
    pyStripL (githubUrlOf u r) = githubUrlOf u r := by
  have sh : githubUrlOf u r
      = 'h' :: (("ttps://github.com/".data ++ u ++ "/".data ++ removeDotGit r ++ ".gi".data) ++ ['t']) := by
    unfold githubUrlOf
    have h1 : "https://github.com/".data = 'h' :: "ttps://github.com/".data := by decide
    have h2 : ".git".data = ".gi".data ++ ['t'] := by decide
    rw [h1, h2]
    simp [List.append_assoc]
  rw [sh]
  exact pyStripL_fix 'h' 't' _ (by decide) (by decide)

theorem normalizeCore_cases (y : List Char) :
    normalizeCore y = y ∨ ∃ u r, normalizeCore y = githubUrlOf u r := by
  unfold normalizeCore
  by_cases h1 : (startsWithL "http://".data y || startsWithL "https://".data y
      || startsWithL "git://".data y || startsWithL "ssh://".data y) = true
  · rw [if_pos h1]
    exact Or.inl rfl
  · rw [if_neg h1]
    by_cases h2 : startsWithL "git@".data y = true
    · rw [if_pos h2]
      exact Or.inl rfl
    · rw [if_neg h2]
      cases hs : splitSlash y with
      | nil => exact Or.inl rfl
      | cons a t1 =>
        cases t1 with
        | nil => exact Or.inl rfl
        | cons b t2 =>
          cases t2 with
          | nil => exact Or.inr ⟨a, b, rfl⟩
          | cons c t3 =>
            cases t3 with
            | nil =>
              by_cases hm : a = "m".data
              · refine Or.inr ⟨b, c, ?_⟩
                show (if a = "m".data then githubUrlOf b c else y) = githubUrlOf b c
                rw [if_pos hm]
              · refine Or.inl ?_
                show (if a = "m".data then githubUrlOf b c else y) = y
                rw [if_neg hm]
            | cons d t4 => exact Or.inl rfl

/-- Claim C5: normalizing a remote identifier twice equals
normalizing it once, for every input string. -/
theorem claim5_normalize_idempotent (s : String) :
    normalizeRemoteUrl (normalizeRemoteUrl s) = normalizeRemoteUrl s := by
  show String.mk (normalizeCore (pyStripL (String.mk (normalizeCore (pyStripL s.data))).data))
      = String.mk (normalizeCore (pyStripL s.data))
  have hdata : (String.mk (normalizeCore (pyStripL s.data))).data
      = normalizeCore (pyStripL s.data) := rfl
  rw [hdata]
  rcases normalizeCore_cases (pyStripL s.data) with h | ⟨u, r, h⟩
  · rw [h, pyStripL_idem, h]
  · rw [h, pyStripL_github, normalizeCore_github]

/-!
Claim theorems.
-/

/-- Claim C1: merge branch-name extraction in
get_merge_direction_history tries the four patterns in fixed order
with first-match-wins; "Merge branch 'feature-x' into develop" yields
("feature-x", "develop"), "Merge branch 'feature-x'" yields
("feature-x", "main"), and a message matching no pattern yields
("unknown", "unknown"). -/
theorem claim1_branch_extraction :
    analyzeMergeMessage "Merge branch \x27feature-x\x27 into develop" = ("feature-x", "develop")
    ∧ analyzeMergeMessage "Merge branch \x27feature-x\x27" = ("feature-x", "main")
    ∧ analyzeMergeMessage "Merge foo bar baz" = ("unknown", "unknown")
    ∧ (∀ m src tgt, searchAt pat1At m.data = some (src, tgt) →
        analyzeMergeMessage m = (String.mk src, String.mk tgt))
    ∧ (∀ m src, searchAt pat1At m.data = none →
        searchAt pat2At m.data = some src →
        analyzeMergeMessage m = (String.mk src, "main"))
    ∧ (∀ m src, searchAt pat1At m.data = none →
        searchAt pat2At m.data = none →
        searchAt pat3At m.data = some src →
        analyzeMergeMessage m = (String.mk src, "main"))
    ∧ (∀ m src tgt, searchAt pat1At m.data = none →
        searchAt pat2At m.data = none →
        searchAt pat3At m.data = none →
        searchAt pat4At m.data = some (src, tgt) →
        analyzeMergeMessage m = (String.mk src, String.mk tgt))
    ∧ (∀ m, searchAt pat1At m.data = none →
        searchAt pat2At m.data = none →
        searchAt pat3At m.data = none →
        searchAt pat4At m.data = none →
        analyzeMergeMessage m = ("unknown", "unknown")) := by
  refine ⟨by decide, by decide, by decide, ?_, ?_, ?_, ?_, ?_⟩
  · intro m src tgt h
    simp [analyzeMergeMessage, h]
  · intro m src h1 h2
    simp [analyzeMergeMessage, h1, h2]
  · intro m src h1 h2 h3
    simp [analyzeMergeMessage, h1, h2, h3]
  · intro m src tgt h1 h2 h3 h4
    simp [analyzeMergeMessage, h1, h2, h3, h4]
  · intro m h1 h2 h3 h4
    simp [analyzeMergeMessage, h1, h2, h3, h4]

/-- Witness for claim C1: the second-pattern clause applied at a
concrete message on which pattern 1 fails and pattern 2 matches. -/
theorem claim1_branch_extraction_witness :
    analyzeMergeMessage "see Merge branch \x27topic\x27 tail" = ("topic", "main") := by
  have h := claim1_branch_extraction.2.2.2.2.1 "see Merge branch \x27topic\x27 tail"
    "topic".data (by decide) (by decide)
  have e : String.mk "topic".data = "topic" := rfl
  rw [e] at h
  exact h

/-- Claim C2: merge_type classification is a case-insensitive
substring match in the fixed priority order pull-request/pr, feature,
hotfix/fix, release, develop, first match wins with "Regular Merge"
as fallback; in particular "Merge pull request #12 from fix/login"
classifies as Pull Request despite containing "fix". -/
theorem claim2_merge_type_priority :
    classifyMergeType "Merge pull request #12 from fix/login" = "Pull Request"
    ∧ (∀ m, (containsSub "pull request".data (lowerL m.data)
          || containsSub "pr".data (lowerL m.data)) = true →
        classifyMergeType m = "Pull Request")
    ∧ (∀ m, (containsSub "pull request".data (lowerL m.data)
          || containsSub "pr".data (lowerL m.data)) = false →
        containsSub "feature".data (lowerL m.data) = true →
        classifyMergeType m = "Feature Branch")
    ∧ (∀ m, (containsSub "pull request".data (lowerL m.data)
          || containsSub "pr".data (lowerL m.data)) = false →
        containsSub "feature".data (lowerL m.data) = false →
        (containsSub "hotfix".data (lowerL m.data)
          || containsSub "fix".data (lowerL m.data)) = true →
        classifyMergeType m = "Hotfix")
    ∧ (∀ m, (containsSub "pull request".data (lowerL m.data)
          || containsSub "pr".data (lowerL m.data)) = false →
        containsSub "feature".data (lowerL m.data) = false →
        (containsSub "hotfix".data (lowerL m.data)
          || containsSub "fix".data (lowerL m.data)) = false →
        containsSub "release".data (lowerL m.data) = true →
        classifyMergeType m = "Release Branch")
    ∧ (∀ m, (containsSub "pull request".data (lowerL m.data)
          || containsSub "pr".data (lowerL m.data)) = false →
        containsSub "feature".data (lowerL m.data) = false →
        (containsSub "hotfix".data (lowerL m.data)
          || containsSub "fix".data (lowerL m.data)) = false →
        containsSub "release".data (lowerL m.data) = false →
        containsSub "develop".data (lowerL m.data) = true →
        classifyMergeType m = "Development Branch")
    ∧ (∀ m, (containsSub "pull request".data (lowerL m.data)
          || containsSub "pr".data (lowerL m.data)) = false →
        containsSub "feature".data (lowerL m.data) = false →
        (containsSub "hotfix".data (lowerL m.data)
          || containsSub "fix".data (lowerL m.data)) = false →
        containsSub "release".data (lowerL m.data) = false →
        containsSub "develop".data (lowerL m.data) = false →
        classifyMergeType m = "Regular Merge") := by
  refine ⟨by decide, ?_, ?_, ?_, ?_, ?_, ?_⟩
  · intro m h1
    simp [classifyMergeType, h1]
  · intro m h1 h2
    simp [classifyMergeType, h1, h2]
  · intro m h1 h2 h3
    simp [classifyMergeType, h1, h2, h3]
  · intro m h1 h2 h3 h4
    simp [classifyMergeType, h1, h2, h3, h4]
  · intro m h1 h2 h3 h4 h5
    simp [classifyMergeType, h1, h2, h3, h4, h5]
  · intro m h1 h2 h3 h4 h5
    simp [classifyMergeType, h1, h2, h3, h4, h5]

/-- Witness for claim C2: the feature clause applied at a concrete
message with no pull-request/pr substring. -/
theorem claim2_merge_type_priority_witness :
    classifyMergeType "Merge feature xyz" = "Feature Branch" :=
  claim2_merge_type_priority.2.2.1 "Merge feature xyz" (by decide) (by decide)

/-- Claim C8: for every since/until bound, get_commit_stats with an
invalid or unreachable branch reference returns the empty list of
commit rows (the GitCommandError is caught internally). -/
theorem claim8_invalid_branch_empty (r : WalkRepo) (sinceDate untilDate : Option Int)
    (branch : String) (h : lookupRef r branch = none) :
    getCommitStats r sinceDate untilDate branch = [] := by
  simp [getCommitStats, h]

/-- Witness for claim C8: a concrete repository in which the branch
name "nope" does not resolve. -/
theorem claim8_invalid_branch_empty_witness :
    getCommitStats ⟨[("main", [])]⟩ (some 0) none "nope" = [] :=
  claim8_invalid_branch_empty ⟨[("main", [])]⟩ (some 0) none "nope" rfl

/-- Claim C9 (code bug): for every repository state, get_repo_info
returns exactly the keys path, remote_urls, current_branch,
total_branches, is_bare; in particular for a handle opened from the
remote input "xd-wuhongxia/gitsubmitter" the result contains neither
the original identifier (key original_path) nor the ephemeral clone
path (key temp_dir) nor the is_remote marker that app.py reads. -/
theorem claim9_repo_info_missing_remote_keys :
    (∀ r : InfoRepo, (getRepoInfo r).map Prod.fst
        = ["path", "remote_urls", "current_branch", "total_branches", "is_bare"])
    ∧ remoteInfoRepo.isRemote = true
    ∧ remoteInfoRepo.tempDir = some "/tmp/git_analyzer_k2x1"
    ∧ ((getRepoInfo remoteInfoRepo).map Prod.fst).contains "original_path" = false
    ∧ ((getRepoInfo remoteInfoRepo).map Prod.fst).contains "temp_dir" = false
    ∧ ((getRepoInfo remoteInfoRepo).map Prod.fst).contains "is_remote" = false := by
  exact ⟨fun r => rfl, rfl, rfl, by decide, by decide, by decide⟩

/-- Claim C10 counterexample: the single-regex extraction of
get_merge_stats and the four-pattern extraction of
get_merge_direction_history disagree on the canonical message
"Merge branch 'feature-x' into develop" (sources "branch" versus
"feature-x"), so the two are not equivalent. -/
theorem claim10_counterexample :
    mergeStatsExtract "Merge branch \x27feature-x\x27 into develop" = ("branch", "develop")
    ∧ analyzeMergeMessage "Merge branch \x27feature-x\x27 into develop" = ("feature-x", "develop")
    ∧ (("branch", "develop") == (("feature-x", "develop") : String × String)) = false := by
  exact ⟨by decide, by decide, by decide⟩

/-- Claim C10 amended: the two extractions are not equivalent; on
"Merge branch '<src>' into <tgt>" messages the single lazy regex
captures the literal word "branch" as the source while the
four-pattern extraction captures the quoted branch name, and on
"Merge pull request #N from <src>" messages the single regex finds no
match at all while the pattern ladder yields (<src>, "main"); the two
agree on messages matching no pattern. -/
theorem claim10_divergent_extraction :
    mergeStatsExtract "Merge branch \x27feature-x\x27 into develop" = ("branch", "develop")
    ∧ analyzeMergeMessage "Merge branch \x27feature-x\x27 into develop" = ("feature-x", "develop")
    ∧ mergeStatsExtract "Merge pull request #12 from fix/login" = ("unknown", "unknown")
    ∧ analyzeMergeMessage "Merge pull request #12 from fix/login" = ("fix/login", "main")
    ∧ mergeStatsExtract "Merge foo bar baz" = ("unknown", "unknown")
    ∧ analyzeMergeMessage "Merge foo bar baz" = ("unknown", "unknown") := by
  exact ⟨by decide, by decide, by decide, by decide, by decide, by decide⟩

/-- Claim C3 counterexample: the input "a/b/c/d" has four
slash-separated segments, so the claimed two-or-three-segment
condition is false, yet the source classifier (which only requires at
least two segments) returns remote. -/
theorem claim3_counterexample :
    isRemoteUrl "a/b/c/d" = true ∧ claimedRemoteSpec "a/b/c/d" = false := by
  exact ⟨by decide, by decide⟩

/-- Claim C3 amended: the classifier returns remote exactly when the
lowercased, whitespace-stripped input contains one of the nine fixed
substrings, or splits into at least two slash-separated segments with
the first segment containing no dot and the input not starting with a
slash. -/
theorem claim3_remote_condition (s : String) :
    isRemoteUrl s = true ↔ remoteSpecProp s := by
  unfold isRemoteUrl remoteSpecProp
  by_cases hA : remotePatterns.any (fun p => containsSub p (lowerL (pyStripL s.data))) = true
  · rw [if_pos hA]
    simp only [true_iff]
    rcases List.any_eq_true.mp hA with ⟨p, hp, hc⟩
    exact Or.inl ⟨p, hp, (containsSub_iff p _).mp hc⟩
  · rw [if_neg hA]
    have hA' : ¬ ∃ p ∈ remotePatterns, ∃ l1 l2,
        lowerL (pyStripL s.data) = l1 ++ p ++ l2 := by
      rintro ⟨p, hp, l1, l2, he⟩
      exact hA (List.any_eq_true.mpr ⟨p, hp, (containsSub_iff p _).mpr ⟨l1, l2, he⟩⟩)
    have hsw : startsWithL "/".data (lowerL (pyStripL s.data)) = true
        ↔ ∃ u, lowerL (pyStripL s.data) = '/' :: u := by
      rw [startsWithL_iff]
      constructor
      · rintro ⟨u, hu⟩
        exact ⟨u, by simpa using hu⟩
      · rintro ⟨u, hu⟩
        exact ⟨u, by simpa using hu⟩
    constructor
    · intro hB
      simp only [Bool.and_eq_true] at hB
      obtain ⟨⟨hB1, hB2⟩, hB3⟩ := hB
      refine Or.inr ⟨of_decide_eq_true hB1, ?_, ?_⟩
      · intro hex
        rw [Bool.not_eq_true'] at hB2
        rw [hsw.mpr hex] at hB2
        cases hB2
      · intro hmem
        rw [Bool.not_eq_true'] at hB3
        rw [(containsSub_singleton_iff '.' _).mpr hmem] at hB3
        cases hB3
    · rintro (hex | ⟨hlen, hnosw, hnodot⟩)
      · exact absurd hex hA'
      · simp only [Bool.and_eq_true]
        refine ⟨⟨decide_eq_true hlen, ?_⟩, ?_⟩
        · rw [Bool.not_eq_true']
          cases hv : startsWithL "/".data (lowerL (pyStripL s.data)) with
          | false => rfl
          | true => exact absurd (hsw.mp hv) hnosw
        · rw [Bool.not_eq_true']
          cases hv : containsSub ".".data ((splitSlash (lowerL (pyStripL s.data))).headI) with
          | false => rfl
          | true => exact absurd ((containsSub_singleton_iff '.' _).mp hv) hnodot

/-- Witness for claim C3: the amended condition instantiated at the
concrete shorthand input "owner/repo". -/
theorem claim3_remote_condition_witness : remoteSpecProp "owner/repo" :=
  (claim3_remote_condition "owner/repo").mp (by decide)

/-- Claim C4 counterexample: on "o/a.gitb" the source removes every
".git" occurrence from the repo segment (python str.replace), not
just a suffix, producing ".../ab.git" instead of the
".../a.gitb.git" the suffix-stripping reading of the claim yields. -/
theorem claim4_counterexample :
    normalizeRemoteUrl "o/a.gitb" = "https://github.com/o/ab.git"
    ∧ (("https://github.com/o/ab.git" == "https://github.com/o/a.gitb.git") : Bool) = false := by
  exact ⟨by decide, by decide⟩

/-- Claim C4 amended: for whitespace-stripped inputs, the
two-segment shorthand user/repo and the three-segment shorthand
m/user/repo map to "https://github.com/" ++ user ++ "/" ++ repo'
++ ".git" where repo' is the repo segment with every ".git"
occurrence removed; scheme-prefixed URLs and git@ addresses pass
through unchanged. -/
theorem claim4_normalize_forms :
    (∀ u r : List Char, '/' ∉ u → '/' ∉ r →
      pyStripL (u ++ '/' :: r) = u ++ '/' :: r →
      (startsWithL "http://".data (u ++ '/' :: r)
        || startsWithL "https://".data (u ++ '/' :: r)
        || startsWithL "git://".data (u ++ '/' :: r)
        || startsWithL "ssh://".data (u ++ '/' :: r)) = false →
      startsWithL "git@".data (u ++ '/' :: r) = false →
      normalizeRemoteUrl (String.mk (u ++ '/' :: r)) = String.mk (githubUrlOf u r))
    ∧ (∀ u r : List Char, '/' ∉ u → '/' ∉ r →
      pyStripL ('m' :: '/' :: (u ++ '/' :: r)) = 'm' :: '/' :: (u ++ '/' :: r) →
      normalizeRemoteUrl (String.mk ('m' :: '/' :: (u ++ '/' :: r))) = String.mk (githubUrlOf u r))
    ∧ (∀ s : String, pyStripL s.data = s.data →
      (startsWithL "http://".data s.data || startsWithL "https://".data s.data
        || startsWithL "git://".data s.data || startsWithL "ssh://".data s.data) = true →
      normalizeRemoteUrl s = s)
    ∧ (∀ s : String, pyStripL s.data = s.data →
      startsWithL "git@".data s.data = true →
      normalizeRemoteUrl s = s) := by
  refine ⟨?_, ?_, ?_, ?_⟩
  · intro u r hu hr hstrip hpre hgit
    show String.mk (normalizeCore (pyStripL (u ++ '/' :: r))) = String.mk (githubUrlOf u r)
    rw [hstrip]
    unfold normalizeCore
    rw [hpre, hgit]
    have hsp : splitSlash (u ++ '/' :: r) = [u, r] := by
      rw [splitSlash_append u r hu, splitSlash_no_slash r hr]
    rw [hsp]
    rfl
  · intro u r hu hr hstrip
    show String.mk (normalizeCore (pyStripL ('m' :: '/' :: (u ++ '/' :: r))))
        = String.mk (githubUrlOf u r)
    rw [hstrip]
    have hm : '/' ∉ ['m'] := by decide
    have hsp : splitSlash ('m' :: '/' :: (u ++ '/' :: r)) = ['m'] :: splitSlash (u ++ '/' :: r) :=
      splitSlash_append ['m'] (u ++ '/' :: r) hm
    have hsp2 : splitSlash (u ++ '/' :: r) = [u, r] := by
      rw [splitSlash_append u r hu, splitSlash_no_slash r hr]
    unfold normalizeCore
    rw [hsp, hsp2]
    simp [startsWithL]
  · intro s hstrip hpre
    show String.mk (normalizeCore (pyStripL s.data)) = s
    rw [hstrip]
    unfold normalizeCore
    rw [hpre]
    simp [mk_data]
  · intro s hstrip hgit
    show String.mk (normalizeCore (pyStripL s.data)) = s
    rw [hstrip]
    rcases (startsWithL_iff _ _).mp hgit with ⟨t, ht⟩
    have hd : ("git@".data : List Char) = ['g', 'i', 't', '@'] := rfl
    unfold normalizeCore
    rw [ht, hd]
    simp only [List.cons_append, List.nil_append]
    have c1 : startsWithL "http://".data ('g' :: 'i' :: 't' :: '@' :: t) = false := by
      simp [startsWithL]
    have c2 : startsWithL "https://".data ('g' :: 'i' :: 't' :: '@' :: t) = false := by
      simp [startsWithL]
    have c3 : startsWithL "git://".data ('g' :: 'i' :: 't' :: '@' :: t) = false := by
      simp [startsWithL]
    have c4 : startsWithL "ssh://".data ('g' :: 'i' :: 't' :: '@' :: t) = false := by
      simp [startsWithL]
    have c5 : startsWithL "git@".data ('g' :: 'i' :: 't' :: '@' :: t) = true := by
      simp [startsWithL]
    rw [c1, c2, c3, c4, c5]
    have heq : 'g' :: 'i' :: 't' :: '@' :: t = s.data := by rw [ht, hd]; simp
    rw [heq]
    show String.mk s.data = s
    exact mk_data s

/-- Witness for claim C4: the two-segment clause applied at the
concrete input "owner/repo". -/
theorem claim4_normalize_forms_witness :
    normalizeRemoteUrl "owner/repo" = "https://github.com/owner/repo.git" := by
  have h := claim4_normalize_forms.1 "owner".data "repo".data
    (by decide) (by decide) (by decide) (by decide) (by decide)
  have e1 : String.mk ("owner".data ++ '/' :: "repo".data) = "owner/repo" := rfl
  have e2 : String.mk (githubUrlOf "owner".data "repo".data)
      = "https://github.com/owner/repo.git" := rfl
  rw [e1, e2] at h
  exact h

theorem getBranchStats_countP (bs : List BranchTip) (a : String) :
    (getBranchStats ⟨bs, some a⟩).countP (fun st => st.is_active)
      = (bs.map BranchTip.name).count a := by
  induction bs with
  | nil => rfl
  | cons b t ih =>
    have hf : getBranchStats ⟨b :: t, some a⟩
        = { branch_name := b.name, last_commit_hash := b.tipHash.take 8,
            last_commit_date := b.tipDate, last_author := b.tipAuthor,
            commits_count := b.commitCount,
            is_active := decide (b.name = a) } :: getBranchStats ⟨t, some a⟩ := rfl
    rw [hf, List.countP_cons, List.map_cons, List.count_cons, ih]
    by_cases hba : b.name = a
    · simp [hba]
    · simp [hba, fun e => hba (by simpa using e)]

/-- Claim C7 counterexample: with HEAD detached and one local branch,
get_branch_stats lists no branches at all (accessing active_branch
raises inside the per-branch handler and every branch is skipped), so
"all local branches are still enumerated" fails. -/
theorem claim7_counterexample :
    getBranchStats detachedRepo = [] ∧ detachedRepo.branches.length = 1 := by
  exact ⟨rfl, rfl⟩

/-- Claim C7 amended: when HEAD is attached to a listed branch (and
branch names are distinct) exactly one row of get_branch_stats has
is_active = true; when HEAD is detached the result is empty — zero
rows have is_active = true, but the branches are not enumerated. -/
theorem claim7_branch_active :
    (∀ (bs : List BranchTip) (a : String),
      (bs.map BranchTip.name).Nodup →
      a ∈ bs.map BranchTip.name →
      (getBranchStats ⟨bs, some a⟩).countP (fun st => st.is_active) = 1)
    ∧ (∀ r : BranchRepo, r.active = none → getBranchStats r = []) := by
  constructor
  · intro bs a hnd hmem
    rw [getBranchStats_countP bs a]
    exact List.count_eq_one_of_mem hnd hmem
  · intro r h
    simp [getBranchStats, h]

/-- Witness for claim C7: the attached clause applied at the concrete
two-branch repository with HEAD on "main", and the detached clause
applied at the concrete detached repository. -/
theorem claim7_branch_active_witness :
    (getBranchStats attachedRepo).countP (fun st => st.is_active) = 1
    ∧ getBranchStats detachedRepo = [] := by
  constructor
  · exact claim7_branch_active.1 attachedRepo.branches "main" (by decide) (by decide)
  · exact claim7_branch_active.2 detachedRepo rfl

theorem addTag_keys (m : List (String × List String)) (h bn : String) :
    (addTag m h bn).map Prod.fst
      = if h ∈ m.map Prod.fst then m.map Prod.fst else m.map Prod.fst ++ [h] := by
  induction m with
  | nil => simp [addTag]
  | cons e t ih =>
    obtain ⟨k, v⟩ := e
    by_cases hk : k = h
    · subst hk
      simp [addTag]
    · have hk' : ¬ h = k := fun e => hk e.symm
      simp only [addTag, if_neg hk, List.map_cons, ih, List.mem_cons]
      by_cases hm : h ∈ t.map Prod.fst
      · simp [hm, hk']
      · simp [hm, hk']

theorem addTag_nodup (m : List (String × List String)) (h bn : String)
    (hnd : (m.map Prod.fst).Nodup) : ((addTag m h bn).map Prod.fst).Nodup := by
  rw [addTag_keys]
  by_cases hm : h ∈ m.map Prod.fst
  · simpa [hm] using hnd
  · simp only [if_neg hm, List.nodup_append]
    refine ⟨hnd, List.nodup_singleton h, fun a ha hb => hm ?_⟩
    rw [List.mem_singleton] at hb
    rw [← hb]
    exact ha

theorem tagsOf_addTag (m : List (String × List String)) (h bn h' : String) :
    tagsOf (addTag m h bn) h'
      = if h' = h then tagsOf m h ++ [bn] else tagsOf m h' := by
  induction m with
  | nil =>
    by_cases he : h' = h
    · subst he
      rw [if_pos rfl]
      simp [addTag, tagsOf]
    · rw [if_neg he]
      have he' : ¬ h = h' := fun e => he e.symm
      simp [addTag, tagsOf, he']
  | cons e t ih =>
    obtain ⟨k, v⟩ := e
    by_cases hk : k = h
    · subst hk
      have ha : addTag ((k, v) :: t) k bn = (k, v ++ [bn]) :: t := by
        simp [addTag]
      rw [ha]
      by_cases he : h' = k
      · subst he
        rw [if_pos rfl]
        simp [tagsOf]
      · rw [if_neg he]
        have hk' : ¬ k = h' := fun e => he e.symm
        simp [tagsOf, hk']
    · have ha : addTag ((k, v) :: t) h bn = (k, v) :: addTag t h bn := by
        simp [addTag, hk]
      rw [ha]
      by_cases he : h' = k
      · subst he
        have hne : ¬ h' = h := hk
        rw [if_neg hne]
        simp [tagsOf]
      · have hk' : ¬ k = h' := fun e => he e.symm
        have h1 : tagsOf ((k, v) :: addTag t h bn) h' = tagsOf (addTag t h bn) h' := by
          simp [tagsOf, hk']
        have h2 : tagsOf ((k, v) :: t) h' = tagsOf t h' := by
          simp [tagsOf, hk']
        by_cases hyp : h' = h
        · subst hyp
          rw [if_pos rfl, h1, ih, if_pos rfl, h2]
        · rw [if_neg hyp, h1, ih, if_neg hyp, h2]

theorem tagsOf_innerFold (cs : List String) (bn : String)
    (m : List (String × List String)) (h bn' : String) :
    bn' ∈ tagsOf (cs.foldl (fun m2 c => addTag m2 c bn) m) h
      ↔ bn' ∈ tagsOf m h ∨ (bn' = bn ∧ h ∈ cs) := by
  induction cs generalizing m with
  | nil => simp
  | cons c t ih =>
    rw [List.foldl_cons, ih, tagsOf_addTag]
    by_cases hc : h = c
    · rw [if_pos hc]
      subst hc
      constructor
      · rintro (hm | ⟨rfl, ht⟩)
        · rcases List.mem_append.mp hm with h1 | h1
          · exact Or.inl h1
          · exact Or.inr ⟨List.mem_singleton.mp h1, List.mem_cons_self h t⟩
        · exact Or.inr ⟨rfl, List.mem_cons_of_mem h ht⟩
      · rintro (hm | ⟨rfl, ht⟩)
        · exact Or.inl (List.mem_append.mpr (Or.inl hm))
        · exact Or.inl (List.mem_append.mpr (Or.inr (List.mem_singleton.mpr rfl)))
    · rw [if_neg hc]
      constructor
      · rintro (hm | ⟨rfl, ht⟩)
        · exact Or.inl hm
        · exact Or.inr ⟨rfl, List.mem_cons_of_mem c ht⟩
      · rintro (hm | ⟨rfl, h2⟩)
        · exact Or.inl hm
        · rcases List.mem_cons.mp h2 with h3 | ht
          · exact absurd h3 hc
          · exact Or.inr ⟨rfl, ht⟩

theorem keys_innerFold_nodup (cs : List String) (bn : String)
    (m : List (String × List String))
    (hnd : (m.map Prod.fst).Nodup) :
    ((cs.foldl (fun m2 c => addTag m2 c bn) m).map Prod.fst).Nodup := by
  induction cs generalizing m with
  | nil => exact hnd
  | cons c t ih => exact ih _ (addTag_nodup m c bn hnd)

theorem tagsOf_build_aux (bs : List BranchRef) (m : List (String × List String))
    (h bn : String) :
    bn ∈ tagsOf (bs.foldl
        (fun acc b => (b.commits.take 50).foldl (fun m2 c => addTag m2 c b.name) acc) m) h
      ↔ bn ∈ tagsOf m h ∨ ∃ b ∈ bs, bn = b.name ∧ h ∈ b.commits.take 50 := by
  induction bs generalizing m with
  | nil => simp
  | cons b t ih =>
    rw [List.foldl_cons, ih, tagsOf_innerFold]
    constructor
    · rintro ((hm | ⟨rfl, hc⟩) | ⟨b', hb', rfl, hc'⟩)
      · exact Or.inl hm
      · exact Or.inr ⟨b, List.mem_cons_self b t, rfl, hc⟩
      · exact Or.inr ⟨b', List.mem_cons_of_mem b hb', rfl, hc'⟩
    · rintro (hm | ⟨b', hb', rfl, hc'⟩)
      · exact Or.inl (Or.inl hm)
      · rcases List.mem_cons.mp hb' with rfl | hb2
        · exact Or.inl (Or.inr ⟨rfl, hc'⟩)
        · exact Or.inr ⟨b', hb2, rfl, hc'⟩

theorem keys_build_nodup (bs : List BranchRef) :
    ((buildCommitBranchMap bs).map Prod.fst).Nodup := by
  unfold buildCommitBranchMap
  suffices h : ∀ m : List (String × List String), (m.map Prod.fst).Nodup →
      ((bs.foldl (fun acc b => (b.commits.take 50).foldl
        (fun m2 c => addTag m2 c b.name) acc) m).map Prod.fst).Nodup by
    exact h [] (by simp)
  induction bs with
  | nil => exact fun m hm => hm
  | cons b t ih =>
    intro m hm
    exact ih _ (keys_innerFold_nodup _ _ _ hm)

theorem tagsOf_build (bs : List BranchRef) (h bn : String) :
    bn ∈ tagsOf (buildCommitBranchMap bs) h
      ↔ ∃ b ∈ bs, bn = b.name ∧ h ∈ b.commits.take 50 := by
  unfold buildCommitBranchMap
  rw [tagsOf_build_aux]
  simp [tagsOf]

theorem mem_tagsOf_iff (m : List (String × List String))
    (hnd : (m.map Prod.fst).Nodup) (h bn : String) :
    (∃ e ∈ m, e.1 = h ∧ bn ∈ e.2) ↔ bn ∈ tagsOf m h := by
  induction m with
  | nil => simp [tagsOf]
  | cons e t ih =>
    obtain ⟨k, v⟩ := e
    rw [List.map_cons, List.nodup_cons] at hnd
    by_cases hk : k = h
    · subst hk
      have hT : tagsOf ((k, v) :: t) k = v := by simp [tagsOf]
      rw [hT]
      constructor
      · rintro ⟨e2, he2, h1, h2⟩
        rcases List.mem_cons.mp he2 with rfl | hmem
        · exact h2
        · exact absurd (List.mem_map.mpr ⟨e2, hmem, h1⟩) hnd.1
      · intro hv
        exact ⟨(k, v), List.mem_cons_self _ _, rfl, hv⟩
    · have hT : tagsOf ((k, v) :: t) h = tagsOf t h := by
        have hk' : ¬ k = h := hk
        simp [tagsOf, hk']
      rw [hT, ← ih hnd.2]
      constructor
      · rintro ⟨e2, he2, h1, h2⟩
        rcases List.mem_cons.mp he2 with rfl | hmem
        · exact absurd h1 hk
        · exact ⟨e2, hmem, h1, h2⟩
      · rintro ⟨e2, he2, h1, h2⟩
        exact ⟨e2, List.mem_cons_of_mem _ he2, h1, h2⟩

/-- Claim C6: in the graph built by get_branch_graph_data every
commit hash appears as at most one node; a node's branch list holds
exactly the names of the branches whose capped (50-commit) traversal
reached the hash; and any hash reached by some branch appears exactly
once. -/
theorem claim6_graph_nodes (r : GraphRepo) :
    ((graphCommits r).map GraphNode.full_hash).Nodup
    ∧ (∀ h bn, (∃ n ∈ graphCommits r, n.full_hash = h ∧ bn ∈ n.branches)
        ↔ ∃ b ∈ r.branches, bn = b.name ∧ h ∈ b.commits.take 50)
    ∧ (∀ h, (∃ b ∈ r.branches, h ∈ b.commits.take 50) →
        ((graphCommits r).map GraphNode.full_hash).count h = 1) := by
  have hperm : (graphCommits r).Perm
      ((buildCommitBranchMap r.branches).map (nodeOfEntry r)) :=
    List.mergeSort_perm _ _
  have hnd0 := keys_build_nodup r.branches
  have hkeys : (((buildCommitBranchMap r.branches).map (nodeOfEntry r)).map GraphNode.full_hash)
      = (buildCommitBranchMap r.branches).map Prod.fst := by
    rw [List.map_map]
    rfl
  have hndup : ((graphCommits r).map GraphNode.full_hash).Nodup :=
    (List.Perm.nodup_iff (hperm.map GraphNode.full_hash)).mpr (hkeys ▸ hnd0)
  have hiff : ∀ h bn, (∃ n ∈ graphCommits r, n.full_hash = h ∧ bn ∈ n.branches)
      ↔ ∃ b ∈ r.branches, bn = b.name ∧ h ∈ b.commits.take 50 := by
    intro h bn
    have s1 : (∃ n ∈ graphCommits r, n.full_hash = h ∧ bn ∈ n.branches)
        ↔ (∃ e ∈ buildCommitBranchMap r.branches, e.1 = h ∧ bn ∈ e.2) := by
      constructor
      · rintro ⟨n, hn, p1, p2⟩
        rcases List.mem_map.mp (hperm.mem_iff.mp hn) with ⟨e, he, rfl⟩
        exact ⟨e, he, p1, p2⟩
      · rintro ⟨e, he, p1, p2⟩
        exact ⟨nodeOfEntry r e, hperm.mem_iff.mpr (List.mem_map.mpr ⟨e, he, rfl⟩), p1, p2⟩
    rw [s1, mem_tagsOf_iff _ hnd0 h bn]
    exact tagsOf_build r.branches h bn
  refine ⟨hndup, hiff, ?_⟩
  intro h hex
  rcases hex with ⟨b, hb, hc⟩
  rcases (hiff h b.name).mpr ⟨b, hb, rfl, hc⟩ with ⟨n, hnmem, hnh, -⟩
  exact List.count_eq_one_of_mem hndup (List.mem_map.mpr ⟨n, hnmem, hnh⟩)

/-- Witness for claim C6: in the concrete two-branch repository whose
traversals share commit "c1", that commit has exactly one node and
carries both branch names. -/
theorem claim6_graph_nodes_witness :
    ((graphCommits sharedHistoryRepo).map GraphNode.full_hash).count "c1" = 1
    ∧ (∃ n ∈ graphCommits sharedHistoryRepo, n.full_hash = "c1" ∧ "main" ∈ n.branches)
    ∧ (∃ n ∈ graphCommits sharedHistoryRepo, n.full_hash = "c1" ∧ "dev" ∈ n.branches) := by
  refine ⟨?_, ?_, ?_⟩
  · exact (claim6_graph_nodes sharedHistoryRepo).2.2 "c1"
      ⟨{ name := "main", commits := ["c3", "c1"] }, by decide, by decide⟩
  · exact ((claim6_graph_nodes sharedHistoryRepo).2.1 "c1" "main").mpr
      ⟨{ name := "main", commits := ["c3", "c1"] }, by decide, rfl, by decide⟩
  · exact ((claim6_graph_nodes sharedHistoryRepo).2.1 "c1" "dev").mpr
      ⟨{ name := "dev", commits := ["c2", "c1"] }, by decide, rfl, by decide⟩

end GitAnalyzer
